import Mathlib

/-!
Verification development for the GTree `spatialgrange` benchmarking harness
(`src/road/spatialgrange.cc`).  The harness runs group range searches over a
paged road graph, records the sequence of storage pages each query touches,
and estimates the hit rate a least-recently-used (LRU) page cache of several
capacities would have achieved on that access pattern.

The repository snapshot contains only the driver `spatialgrange.cc`; the
bodies of `IOMeasure::pagelru` and `AccessList::clean` live in translation
units that are not part of the snapshot.  Where a definition embeds such a
missing body it is modelled from the specification and its doc comment says
so explicitly.  Everything else is translated directly from
`spatialgrange.cc`.

Machine integers are modelled as `Int`/`Nat` (no overflow is reachable in the
claims below), C `float` arithmetic is modelled over `ℚ` where the claims do
not depend on rounding, and fallible C constructs (division by zero, failed
stream extraction) are modelled with `Option`.
-/

namespace SpatialGRange

/-- A page identifier recorded in the access trace (`segmem.m_history`). -/
abbrev PageId := Nat

/-! ### Multi-capacity LRU estimator

Modelled from the spec: the body of `IOMeasure::pagelru` (declared in
`iomeasure.h`, invoked at `spatialgrange.cc:206-211`) is not in the snapshot.
Spec §4.2 describes the stack-distance technique: per trace position, the
stack distance `d` of page `p` is the number of distinct pages referenced
strictly between `p`'s previous occurrence and now; the access is a hit at
capacity `c` iff `d < c`, and a first occurrence is a miss at every capacity.
The recency stack (most recent first) makes `d` the index of `p` in the
stack. -/

/-- Move page `p` to the front of the recency stack (it was just accessed). -/
def touch (p : PageId) (s : List PageId) : List PageId :=
  p :: s.erase p

/-- Index of page `p` in the recency stack: the number of distinct pages
accessed since `p`'s previous access, i.e. its stack distance.  Meaningful
only when `p` is in the stack. -/
def stackDist (p : PageId) : List PageId → Nat
  | [] => 0
  | q :: s => if q = p then 0 else stackDist p s + 1

/-- One pass over the trace, starting from recency stack `s`: the list of
stack distances of all non-first accesses, in trace order.  First
occurrences contribute no entry (they miss at every capacity). -/
def stackDistList (s : List PageId) : List PageId → List Nat
  | [] => []
  | p :: rest =>
    if p ∈ s then stackDist p s :: stackDistList (touch p s) rest
    else stackDistList (touch p s) rest

/-- Modelled from the spec: `IOMeasure::pagelru` — the hit count of an LRU
cache of capacity `c` on the recorded trace, computed by the stack-distance
technique (spec §4.2): an access is a hit at capacity `c` iff its stack
distance is `< c`. -/
def pagelru (history : List PageId) (c : Nat) : Nat :=
  ((stackDistList [] history).filter (fun d => d < c)).length

/-- Modelled from the spec (§4.2 responsibility): all per-capacity hit counts
from ONE pass over the trace — `stackDistList` traverses the trace once and
each capacity only counts the precomputed distances, with no per-capacity
re-simulation of the cache. -/
def pagelruMulti (caps : List Nat) (history : List PageId) : List Nat :=
  let ds := stackDistList [] history
  caps.map (fun c => (ds.filter (fun d => d < c)).length)

/-- The capacity set the harness evaluates (`spatialgrange.cc:206-211`). -/
def sixCaps : List Nat := [1, 10, 20, 30, 40, 50]

/-- Brute-force reference LRU cache (spec §8 differential equivalence): the
cache is the list of resident pages, most recently used first.  A hit moves
the page to the front; a miss inserts it at the front and truncates to the
capacity. -/
def bruteStep (c : Nat) (cache : List PageId) (p : PageId) : List PageId :=
  if p ∈ cache then p :: cache.erase p
  else (p :: cache).take c

/-- Brute-force hit count: replay the trace through an explicit LRU cache of
capacity `c`, counting hits. -/
def bruteLruAux (c : Nat) (cache : List PageId) : List PageId → Nat
  | [] => 0
  | p :: rest =>
    if p ∈ cache then bruteLruAux c (bruteStep c cache p) rest + 1
    else bruteLruAux c (bruteStep c cache p) rest

/-- Brute-force reference: hit count of an explicit LRU cache of capacity
`c`, starting cold. -/
def bruteLru (c : Nat) (history : List PageId) : Nat :=
  bruteLruAux c [] history

/-- Number of distinct pages occurring in a trace. -/
def distinctPageCount (history : List PageId) : Nat :=
  history.dedup.length

/-! ### Source sampling (`spatialgrange.cc:159-165`)

```c
for (int j=0; j<numsrc; j++)
{
    while ((src[j] = (int)((rand()%1000 / 1000.0f)*nodecnt)) > nodecnt);
    rng[j] = range * diameter;
}
```
`rand()%1000` is modelled as an arbitrary draw stream of naturals `< 1000`.
The C cast `(int)` truncates toward zero, so in exact arithmetic the drawn
value is the toward-zero truncation of the rational `(k/1000)·nodecnt`,
which is `Int.tdiv (k·nodecnt) 1000`.  (The `float` evaluation can differ
from the exact value by at most one unit in the last place; every property
proved below is independent of that sub-ulp rounding.) -/

/-- One draw of the sampler: `(int)((k / 1000.0f) * nodecnt)` where
`k = rand()%1000`, in exact arithmetic — the truncation toward zero of
`(k/1000)·nodecnt`. -/
def draw (k : Nat) (nodecnt : Int) : Int :=
  Int.tdiv ((k : Int) * nodecnt) 1000

/-- The rejection loop `while ((src[j] = draw) > nodecnt);` — it retries
exactly while the drawn value exceeds `nodecnt`.  The C loop has no retry
bound; `fuel` makes the model total, and `none` for every `fuel` means the C
loop never terminates. -/
def sampleSrc : Nat → (Nat → Nat) → Int → Option Int
  | 0, _, _ => none
  | fuel + 1, ks, nodecnt =>
    let v := draw (ks 0) nodecnt
    if nodecnt < v then sampleSrc fuel (fun i => ks (i + 1)) nodecnt else some v

/-- The per-source generation loop: `numsrc` iterations, each drawing a
source id through the rejection loop and setting the range to
`range * diameter`.  `ks j` is the draw stream consumed by source `j`
(faithful whenever each inner loop consumes only its own draws, which holds
in every run where the loops terminate). -/
def generateAux (fuel : Nat) (ks : Nat → Nat → Nat) (nodecnt : Int)
    (range diameter : ℚ) : Nat → Nat → Option (List (Int × ℚ))
  | _, 0 => some []
  | j, m + 1 =>
    match sampleSrc fuel (ks j) nodecnt with
    | none => none
    | some v =>
      (generateAux fuel ks nodecnt range diameter (j + 1) m).map
        (fun l => (v, range * diameter) :: l)

/-- Workload generation for one query: the `(src, rng)` pairs of
`spatialgrange.cc:159-165`. -/
def generate (fuel numsrc : Nat) (ks : Nat → Nat → Nat) (nodecnt : Int)
    (range diameter : ℚ) : Option (List (Int × ℚ)) :=
  generateAux fuel ks nodecnt range diameter 0 numsrc

/-! ### Object-file loading (`spatialgrange.cc:103-115`)

```c
while (true)
{
    int nodeid, objid;
    fobj >> nodeid;
    if (fobj.eof()) break;
    fobj >> objid;
    ...
    smap.addObject(objid, nodeid, node->m_x, node->m_y);
}
```
The whitespace-separated integer tokens of the object file are modelled as a
`List Int`.  Extraction from an exhausted stream fails and (C++11
`num_get` semantics) stores `0` into the target; `eof()` then breaks the
loop on the next `>> nodeid`.  The result lists the `(objid, nodeid)`
arguments of the `smap.addObject` calls, in order. -/
def loadObjects : List Int → List (Int × Int)
  | [] => []
  | [nodeid] => [(0, nodeid)]
  | nodeid :: objid :: rest => (objid, nodeid) :: loadObjects rest

/-! ### Final report (`spatialgrange.cc:229-243`)

The averaged fields: `totaltime/numquery`, `resultsize*1.0/numquery`,
`totalnodeaccess*1.0/numquery`, `totaledgeaccess*1.0/numquery` are C float
or double divisions; `totallru1/numquery` … `totallru50/numquery` are C
`int` divisions (truncation toward zero).  Division by zero is undefined for
`int` operands and produces NaN/±inf for float operands; both are modelled
as `none`. -/

/-- C `int` division: truncation toward zero, undefined on divisor `0`. -/
def cdiv (a b : Int) : Option Int :=
  if b = 0 then none else some (Int.tdiv a b)

/-- C float division, modelled over `ℚ`: no finite value on divisor `0`. -/
def fdiv (a b : ℚ) : Option ℚ :=
  if b = 0 then none else some (a / b)

/-- Running totals accumulated over the query loop
(`spatialgrange.cc:125-134`, updated at lines 213-222). -/
structure Totals where
  totaltime : ℚ
  resultsize : Int
  totalnodeaccess : Int
  totaledgeaccess : Int
  totallru1 : Int
  totallru10 : Int
  totallru20 : Int
  totallru30 : Int
  totallru40 : Int
  totallru50 : Int

/-- The averaged fields of the report line (`spatialgrange.cc:233-242`). -/
structure Report where
  qtime : ℚ
  res : ℚ
  node : ℚ
  edge : ℚ
  lru1 : Int
  lru10 : Int
  lru20 : Int
  lru30 : Int
  lru40 : Int
  lru50 : Int

/-- The report computation: every field is divided by `numquery`
unconditionally, exactly as in the source. -/
def mkReport (t : Totals) (numquery : Int) : Option Report := do
  let qtime ← fdiv t.totaltime (numquery : ℚ)
  let res ← fdiv (t.resultsize : ℚ) (numquery : ℚ)
  let node ← fdiv (t.totalnodeaccess : ℚ) (numquery : ℚ)
  let edge ← fdiv (t.totaledgeaccess : ℚ) (numquery : ℚ)
  let lru1 ← cdiv t.totallru1 numquery
  let lru10 ← cdiv t.totallru10 numquery
  let lru20 ← cdiv t.totallru20 numquery
  let lru30 ← cdiv t.totallru30 numquery
  let lru40 ← cdiv t.totallru40 numquery
  let lru50 ← cdiv t.totallru50 numquery
  pure {
    qtime := qtime, res := res, node := node, edge := edge,
    lru1 := lru1, lru10 := lru10, lru20 := lru20,
    lru30 := lru30, lru40 := lru40, lru50 := lru50 }

/-! ### One iteration of the query loop (`spatialgrange.cc:147-222`)

Each iteration declares fresh zeroed counters (lines 150-152), empties the
page-access history in place (`segmem.m_history.clean()`, line 154) before
workload generation (lines 159-165) and before the search (line 171), and
then runs the estimator over the history the search populated (lines
206-211). -/

/-- Modelled from the spec: `AccessList::clean` (the body is not in the
snapshot) — "reset (logically emptied, buffer reused)"; the trace is empty
afterwards. -/
def clean (_h : List PageId) : List PageId := []

/-- Modelled from the spec: `groupRangeSearch` routes every page it touches
through the trace's record hook, appending in order; `pages` abstracts the
pages this particular query touches. -/
def recordPages (h : List PageId) (pages : List PageId) : List PageId :=
  h ++ pages

/-- What one iteration feeds the estimator and the aggregator. -/
structure IterResult where
  history : List PageId
  nodeaccess : Nat
  edgeaccess : Nat
  lrus : List Nat
  deriving Repr, DecidableEq

/-- One iteration of the query loop, given the history `h0` left over from
the previous iteration and the pages `pages` (and access counts `na`, `ea`)
of this query's search: clean the history, run the search (which records its
pages and its counts on the fresh zeroed counters), then run the estimator
over the populated history. -/
def queryIteration (h0 : List PageId) (pages : List PageId) (na ea : Nat) :
    IterResult :=
  let h1 := clean h0
  let h2 := recordPages h1 pages
  { history := h2
    nodeaccess := 0 + na
    edgeaccess := 0 + ea
    lrus := pagelruMulti sixCaps h2 }

/-! ### Lemmas about the recency stack -/

theorem touch_nodup {p : PageId} {s : List PageId} (h : s.Nodup) :
    (touch p s).Nodup := by
  refine List.Nodup.cons (fun hm => ?_) (h.erase p)
  exact ((h.mem_erase_iff).1 hm).1 rfl

theorem stackDist_lt_length {p : PageId} {s : List PageId} (h : p ∈ s) :
    stackDist p s < s.length := by
  induction s with
  | nil => cases h
  | cons q t ih =>
    by_cases hq : q = p
    · simp [stackDist, hq]
    · have ht : p ∈ t := by
        rcases List.mem_cons.1 h with h1 | h1
        · exact absurd h1.symm hq
        · exact h1
      simpa [stackDist, hq] using ih ht

theorem mem_take_iff_stackDist {p : PageId} {s : List PageId} (hp : p ∈ s)
    (c : Nat) : p ∈ s.take c ↔ stackDist p s < c := by
  induction s generalizing c with
  | nil => cases hp
  | cons q t ih =>
    by_cases hq : q = p
    · subst hq
      cases c with
      | zero => simp [stackDist]
      | succ c => simp [stackDist, List.take_succ_cons]
    · have ht : p ∈ t := by
        rcases List.mem_cons.1 hp with h1 | h1
        · exact absurd h1.symm hq
        · exact h1
      cases c with
      | zero => simp [stackDist]
      | succ c =>
        rw [List.take_succ_cons]
        simp only [List.mem_cons, stackDist, if_neg hq]
        constructor
        · rintro (h1 | h1)
          · exact absurd h1.symm hq
          · exact Nat.succ_lt_succ ((ih ht c).1 h1)
        · intro h1
          exact Or.inr ((ih ht c).2 (Nat.lt_of_succ_lt_succ h1))

theorem take_erase_of_mem_take {p : PageId} :
    ∀ (s : List PageId) (c : Nat), p ∈ s.take (c + 1) →
      (s.take (c + 1)).erase p = (s.erase p).take c := by
  intro s
  induction s with
  | nil => intro c h; cases h
  | cons q t ih =>
    intro c h
    by_cases hq : q = p
    · subst hq
      simp [List.take_succ_cons, List.erase_cons_head]
    · have hbq : ¬ (q == p) = true := by simpa using hq
      rw [List.take_succ_cons] at h ⊢
      have ht : p ∈ t.take c := by
        rcases List.mem_cons.1 h with h1 | h1
        · exact absurd h1.symm hq
        · exact h1
      cases c with
      | zero => cases ht
      | succ c =>
        rw [List.erase_cons_tail hbq, List.erase_cons_tail hbq,
          List.take_succ_cons, ih c ht]

theorem take_erase_of_not_mem_take {p : PageId} :
    ∀ (s : List PageId) (c : Nat), p ∉ s.take (c + 1) →
      (s.erase p).take c = s.take c := by
  intro s
  induction s with
  | nil => intro c _; simp
  | cons q t ih =>
    intro c h
    rw [List.take_succ_cons] at h
    have hq : q ≠ p := fun hqp => h (by simp [hqp])
    have hbq : ¬ (q == p) = true := by simpa using hq
    have ht : p ∉ t.take c := fun hmem => h (List.mem_cons_of_mem _ hmem)
    cases c with
    | zero => simp
    | succ c =>
      have ht1 : p ∉ t.take (c + 1) := ht
      rw [List.erase_cons_tail hbq, List.take_succ_cons, List.take_succ_cons,
        ih c ht1]

/-- The inclusion property of LRU: tracking the full recency stack, the
explicit cache of capacity `c` is always the first `c` stack entries, so the
brute-force hit count equals the number of stack distances below `c`. -/
theorem bruteLruAux_eq_filter_stackDistList (c : Nat) :
    ∀ (trace s : List PageId), s.Nodup →
      bruteLruAux c (s.take c) trace
        = ((stackDistList s trace).filter (fun d => d < c)).length := by
  intro trace
  induction trace with
  | nil => intro s _; simp [bruteLruAux, stackDistList]
  | cons p rest ih =>
    intro s hs
    by_cases hp : p ∈ s
    · by_cases hd : stackDist p s < c
      · -- a hit: `p` is within the first `c` entries of the stack
        have hmem : p ∈ s.take c := (mem_take_iff_stackDist hp c).2 hd
        obtain ⟨c, rfl⟩ : ∃ c', c = c' + 1 :=
          ⟨c - 1, (Nat.succ_pred_eq_of_pos (Nat.lt_of_le_of_lt (Nat.zero_le _) hd)).symm⟩
        have hcache : bruteStep (c + 1) (s.take (c + 1)) p
            = (touch p s).take (c + 1) := by
          rw [bruteStep, if_pos hmem, take_erase_of_mem_take s c hmem, touch,
            List.take_succ_cons]
        rw [bruteLruAux, if_pos hmem, hcache, stackDistList, if_pos hp,
          List.filter_cons, if_pos (by simpa using hd), List.length_cons,
          ih (touch p s) (touch_nodup hs)]
      · -- in the stack but beyond the first `c` entries: a miss for capacity `c`
        have hmem : p ∉ s.take c := fun hmem =>
          hd ((mem_take_iff_stackDist hp c).1 hmem)
        have hcache : bruteStep c (s.take c) p = (touch p s).take c := by
          cases c with
          | zero => simp [bruteStep]
          | succ c =>
            have hmem1 : p ∉ s.take (c + 1) := hmem
            rw [bruteStep, if_neg hmem, touch, List.take_succ_cons,
              List.take_succ_cons, List.take_take,
              Nat.min_eq_left (Nat.le_succ c),
              take_erase_of_not_mem_take s c hmem1]
        rw [bruteLruAux, if_neg hmem, hcache, stackDistList, if_pos hp,
          List.filter_cons, if_neg (by simpa using hd),
          ih (touch p s) (touch_nodup hs)]
    · -- first occurrence of `p`: a miss at every capacity, no distance emitted
      have hmem : p ∉ s.take c := fun hmem => hp (List.take_subset c s hmem)
      have htouch : touch p s = p :: s := by
        rw [touch, List.erase_of_not_mem hp]
      have hcache : bruteStep c (s.take c) p = (touch p s).take c := by
        cases c with
        | zero => simp [bruteStep]
        | succ c =>
          rw [bruteStep, if_neg hmem, htouch, List.take_succ_cons,
            List.take_succ_cons, List.take_take,
            Nat.min_eq_left (Nat.le_succ c)]
      have hnodup : (touch p s).Nodup := touch_nodup hs
      rw [bruteLruAux, if_neg hmem, hcache, stackDistList, if_neg hp,
        ih (touch p s) hnodup]

/-- The single-pass estimator agrees with the brute-force LRU replay at
every capacity. -/
theorem pagelru_eq_bruteLru (history : List PageId) (c : Nat) :
    pagelru history c = bruteLru c history := by
  have h := bruteLruAux_eq_filter_stackDistList c history [] List.nodup_nil
  rw [pagelru, bruteLru, ← h, List.take_nil]

/-- Counting distances below a threshold is monotone in the threshold. -/
theorem length_filter_lt_mono (l : List Nat) {c1 c2 : Nat} (h : c1 ≤ c2) :
    (l.filter (fun d => d < c1)).length ≤ (l.filter (fun d => d < c2)).length := by
  induction l with
  | nil => simp
  | cons d t ih =>
    by_cases h1 : d < c1
    · rw [List.filter_cons, if_pos (by simpa using h1), List.filter_cons,
        if_pos (by simpa using Nat.lt_of_lt_of_le h1 h)]
      simpa using ih
    · rw [List.filter_cons, if_neg (by simpa using h1)]
      by_cases h2 : d < c2
      · rw [List.filter_cons, if_pos (by simpa using h2)]
        exact Nat.le_trans ih (by simp)
      · rw [List.filter_cons, if_neg (by simpa using h2)]
        exact ih

/-- The recency stack only accumulates pages of the stack and the trace:
every emitted stack distance is below the number of distinct pages
involved. -/
theorem stackDistList_lt_card (trace : List PageId) :
    ∀ s : List PageId, s.Nodup → ∀ d ∈ stackDistList s trace,
      d < (s.toFinset ∪ trace.toFinset).card := by
  induction trace with
  | nil => intro s _ d hd; simp [stackDistList] at hd
  | cons p rest ih =>
    intro s hs d hd
    have htouch : (touch p s).toFinset ⊆ insert p s.toFinset := by
      intro x hx
      rw [touch, List.toFinset_cons] at hx
      rcases Finset.mem_insert.1 hx with h1 | h1
      · exact Finset.mem_insert.2 (Or.inl h1)
      · exact Finset.mem_insert.2
          (Or.inr (List.mem_toFinset.2 (List.erase_subset _ _ (List.mem_toFinset.1 h1))))
    have hsub : (touch p s).toFinset ∪ rest.toFinset
        ⊆ s.toFinset ∪ (p :: rest).toFinset := by
      rw [List.toFinset_cons]
      intro x hx
      rcases Finset.mem_union.1 hx with h1 | h1
      · rcases Finset.mem_insert.1 (htouch h1) with h2 | h2
        · exact Finset.mem_union.2 (Or.inr (Finset.mem_insert.2 (Or.inl h2)))
        · exact Finset.mem_union.2 (Or.inl h2)
      · exact Finset.mem_union.2 (Or.inr (Finset.mem_insert.2 (Or.inr h1)))
    rw [stackDistList] at hd
    by_cases hp : p ∈ s
    · rw [if_pos hp] at hd
      rcases List.mem_cons.1 hd with h1 | h1
      · subst h1
        have h2 : stackDist p s < s.length := stackDist_lt_length hp
        have h3 : s.length = s.toFinset.card := by
          rw [List.card_toFinset, hs.dedup]
        exact Nat.lt_of_lt_of_le (h3 ▸ h2)
          (Finset.card_le_card Finset.subset_union_left)
      · exact Nat.lt_of_lt_of_le (ih (touch p s) (touch_nodup hs) d h1)
          (Finset.card_le_card hsub)
    · rw [if_neg hp] at hd
      exact Nat.lt_of_lt_of_le (ih (touch p s) (touch_nodup hs) d hd)
        (Finset.card_le_card hsub)

/-- Cardinality bookkeeping: inserting an element is erasing it and adding
one. -/
theorem card_insert_eq_card_erase_add_one (p : PageId) (X : Finset PageId) :
    (insert p X).card = (X.erase p).card + 1 := by
  by_cases hp : p ∈ X
  · rw [Finset.insert_eq_self.2 hp, Finset.card_erase_of_mem hp]
    exact (Nat.succ_pred_eq_of_pos (Finset.card_pos.2 ⟨p, hp⟩)).symm
  · rw [Finset.card_insert_of_not_mem hp, Finset.erase_eq_of_not_mem hp]

/-- Exactly the first occurrences of pages are skipped: the number of
emitted distances plus the number of pages of the trace that are new
relative to the stack equals the trace length. -/
theorem stackDistList_length (trace : List PageId) :
    ∀ s : List PageId, s.Nodup →
      (stackDistList s trace).length + (trace.toFinset \ s.toFinset).card
        = trace.length := by
  induction trace with
  | nil => intro s _; simp [stackDistList]
  | cons p rest ih =>
    intro s hs
    have htouch : (touch p s).toFinset = insert p s.toFinset := by
      ext x
      rw [touch, List.toFinset_cons, Finset.mem_insert, Finset.mem_insert,
        List.mem_toFinset, hs.mem_erase_iff, List.mem_toFinset]
      constructor
      · rintro (h1 | ⟨_, h1⟩)
        · exact Or.inl h1
        · exact Or.inr h1
      · rintro (h1 | h1)
        · exact Or.inl h1
        · by_cases hx : x = p
          · exact Or.inl hx
          · exact Or.inr ⟨hx, h1⟩
    rw [stackDistList, List.toFinset_cons]
    by_cases hp : p ∈ s
    · have hpf : p ∈ s.toFinset := List.mem_toFinset.2 hp
      rw [if_pos hp, List.length_cons,
        Finset.insert_sdiff_of_mem _ hpf]
      have h1 := ih (touch p s) (touch_nodup hs)
      rw [htouch, Finset.insert_eq_self.2 hpf] at h1
      rw [List.length_cons, Nat.succ_add, h1]
    · have hpf : p ∉ s.toFinset := fun h => hp (List.mem_toFinset.1 h)
      rw [if_neg hp]
      have h1 := ih (touch p s) (touch_nodup hs)
      rw [htouch, Finset.sdiff_insert] at h1
      rw [Finset.insert_sdiff_of_not_mem _ hpf,
        card_insert_eq_card_erase_add_one, List.length_cons,
        ← Nat.add_assoc, h1]

/-- `pagelruMulti` is the pointwise single-capacity estimator over the
capacity list. -/
theorem pagelruMulti_eq_map (caps : List Nat) (history : List PageId) :
    pagelruMulti caps history = caps.map (pagelru history) := rfl

/-! ### Lemmas about the source sampler -/

theorem draw_nonneg (k : Nat) {n : Int} (hn : 0 ≤ n) : 0 ≤ draw k n :=
  Int.tdiv_nonneg (mul_nonneg (Int.natCast_nonneg k) hn) (by norm_num)

theorem draw_lt {k : Nat} {n : Int} (hk : k < 1000) (hn : 0 < n) :
    draw k n < n := by
  rw [draw, Int.tdiv_eq_ediv (mul_nonneg (Int.natCast_nonneg k) hn.le)
    (by norm_num), Int.ediv_lt_iff_lt_mul (by norm_num : (0 : Int) < 1000)]
  have hk2 : (k : Int) < 1000 := by exact_mod_cast hk
  calc (k : Int) * n < 1000 * n := mul_lt_mul_of_pos_right hk2 hn
  _ = n * 1000 := mul_comm _ _

/-- For a positive node count every draw passes the `> nodecnt` check, so
the rejection loop accepts its very first draw. -/
theorem sampleSrc_pos_step (fuel : Nat) (ks : Nat → Nat) {n : Int}
    (hk : ks 0 < 1000) (hn : 0 < n) :
    sampleSrc (fuel + 1) ks n = some (draw (ks 0) n) := by
  have hv : ¬ n < draw (ks 0) n := not_lt.2 (le_of_lt (draw_lt hk hn))
  simp only [sampleSrc]
  rw [if_neg hv]

/-- For a positive node count, each of the `m` generated entries is an
accepted first draw, in `[0, n)`, with range `range * diameter`. -/
theorem generateAux_pos (fuel : Nat) (ks : Nat → Nat → Nat) {n : Int}
    (hks : ∀ j i, ks j i < 1000) (hn : 0 < n) (range diameter : ℚ) :
    ∀ (m j : Nat), ∃ l,
      generateAux (fuel + 1) ks n range diameter j m = some l
      ∧ l.length = m
      ∧ ∀ pr ∈ l, 0 ≤ pr.1 ∧ pr.1 < n ∧ pr.2 = range * diameter := by
  intro m
  induction m with
  | zero => exact fun j => ⟨[], rfl, rfl, by simp⟩
  | succ m ih =>
    intro j
    obtain ⟨l, hl, hlen, hprop⟩ := ih (j + 1)
    refine ⟨(draw (ks j 0) n, range * diameter) :: l, ?_, by simp [hlen], ?_⟩
    · rw [generateAux, sampleSrc_pos_step fuel (ks j) (hks j 0) hn, hl]
      rfl
    · intro pr hpr
      rcases List.mem_cons.1 hpr with h1 | h1
      · subst h1
        exact ⟨draw_nonneg _ hn.le, draw_lt (hks j 0) hn, rfl⟩
      · exact hprop pr h1

/-! ### Claim theorems -/

/-- **C1**: for every access trace, the hit count the harness computes with
the single-pass multi-capacity estimator for each capacity in
`{1,10,20,30,40,50}` equals the hit count of replaying the same trace
through an explicit brute-force LRU cache of that capacity; the six counts
come from one pass over the trace (`pagelruMulti` derives them all from the
single `stackDistList` traversal), and the agreement in fact holds at every
capacity. -/
theorem lru_singlepass_matches_bruteforce (history : List PageId) :
    pagelruMulti sixCaps history
      = [bruteLru 1 history, bruteLru 10 history, bruteLru 20 history,
         bruteLru 30 history, bruteLru 40 history, bruteLru 50 history]
    ∧ ∀ c, pagelru history c = bruteLru c history := by
  have h : ∀ c, pagelru history c = bruteLru c history :=
    fun c => pagelru_eq_bruteLru history c
  refine ⟨?_, h⟩
  rw [pagelruMulti_eq_map]
  simp only [sixCaps, List.map_cons, List.map_nil, h]

/-- **C3**: for every trace and positive capacities `c1 < c2` the computed
hit count satisfies `hitCount(T, c1) ≤ hitCount(T, c2)`; in particular the
six reported per-query values are ordered
`lru1 ≤ lru10 ≤ lru20 ≤ lru30 ≤ lru40 ≤ lru50`. -/
theorem pagelru_monotone_in_capacity (T : List PageId) (c1 c2 : Nat)
    (_hpos : 0 < c1) (hlt : c1 < c2) :
    pagelru T c1 ≤ pagelru T c2
    ∧ pagelru T 1 ≤ pagelru T 10 ∧ pagelru T 10 ≤ pagelru T 20
    ∧ pagelru T 20 ≤ pagelru T 30 ∧ pagelru T 30 ≤ pagelru T 40
    ∧ pagelru T 40 ≤ pagelru T 50 :=
  ⟨length_filter_lt_mono _ hlt.le,
   length_filter_lt_mono _ (by norm_num),
   length_filter_lt_mono _ (by norm_num),
   length_filter_lt_mono _ (by norm_num),
   length_filter_lt_mono _ (by norm_num),
   length_filter_lt_mono _ (by norm_num)⟩

/-- Witness for **C3** at the trace `[0, 1, 0, 2, 0, 1]` and capacities
`1 < 2`. -/
theorem pagelru_monotone_in_capacity_witness :
    pagelru [0, 1, 0, 2, 0, 1] 1 ≤ pagelru [0, 1, 0, 2, 0, 1] 2
    ∧ pagelru [0, 1, 0, 2, 0, 1] 1 ≤ pagelru [0, 1, 0, 2, 0, 1] 10
    ∧ pagelru [0, 1, 0, 2, 0, 1] 10 ≤ pagelru [0, 1, 0, 2, 0, 1] 20
    ∧ pagelru [0, 1, 0, 2, 0, 1] 20 ≤ pagelru [0, 1, 0, 2, 0, 1] 30
    ∧ pagelru [0, 1, 0, 2, 0, 1] 30 ≤ pagelru [0, 1, 0, 2, 0, 1] 40
    ∧ pagelru [0, 1, 0, 2, 0, 1] 40 ≤ pagelru [0, 1, 0, 2, 0, 1] 50 :=
  pagelru_monotone_in_capacity [0, 1, 0, 2, 0, 1] 1 2 (by decide) (by decide)

/-- **C4**: when the capacity is at least the number of distinct pages in
the trace the hit count is exactly `length − distinct`, and on the empty
trace the hit count is `0` for every capacity. -/
theorem pagelru_saturation (T : List PageId) (c c2 : Nat)
    (hc : distinctPageCount T ≤ c) :
    pagelru T c = T.length - distinctPageCount T ∧ pagelru [] c2 = 0 := by
  constructor
  · have hall : ∀ d ∈ stackDistList [] T, (decide (d < c)) = true := by
      intro d hd
      have h1 := stackDistList_lt_card T [] List.nodup_nil d hd
      simp only [List.toFinset_nil, Finset.empty_union] at h1
      have h2 : T.toFinset.card = distinctPageCount T := List.card_toFinset T
      simpa using Nat.lt_of_lt_of_le (h2 ▸ h1) hc
    rw [pagelru, List.filter_eq_self.2 hall]
    have h3 := stackDistList_length T [] List.nodup_nil
    simp only [List.toFinset_nil, Finset.sdiff_empty] at h3
    rw [List.card_toFinset] at h3
    rw [distinctPageCount]
    omega
  · rfl

/-- Witness for **C4** at `T = [0, 1, 0]` (2 distinct pages), capacity 2 and
empty-trace capacity 7. -/
theorem pagelru_saturation_witness :
    pagelru [0, 1, 0] 2 = [0, 1, 0].length - distinctPageCount [0, 1, 0]
    ∧ pagelru [] 7 = 0 :=
  pagelru_saturation [0, 1, 0] 2 7 (by decide)

/-- **C5**: workload generation with 5 sources, range fraction `1/10`,
diameter `50`, node count `1000` yields exactly 5 entries, every source id
in `[0, 1000)`, and every range exactly `5`. -/
theorem generate_workload_bounds (fuel : Nat) (ks : Nat → Nat → Nat)
    (hks : ∀ j i, ks j i < 1000) :
    ∃ l, generate (fuel + 1) 5 ks 1000 (1 / 10) 50 = some l
      ∧ l.length = 5
      ∧ ∀ pr ∈ l, 0 ≤ pr.1 ∧ pr.1 < 1000 ∧ pr.2 = 5 := by
  obtain ⟨l, hl, hlen, hprop⟩ :=
    generateAux_pos fuel ks hks (by norm_num : (0 : Int) < 1000) (1 / 10) 50 5 0
  refine ⟨l, hl, hlen, fun pr hpr => ?_⟩
  obtain ⟨h1, h2, h3⟩ := hprop pr hpr
  refine ⟨h1, h2, by rw [h3]; norm_num⟩

/-- Witness for **C5** with the constant draw stream `0` and fuel 1. -/
theorem generate_workload_bounds_witness :
    ∃ l, generate 1 5 (fun _ _ => 0) 1000 (1 / 10) 50 = some l
      ∧ l.length = 5
      ∧ ∀ pr ∈ l, 0 ≤ pr.1 ∧ pr.1 < 1000 ∧ pr.2 = 5 :=
  generate_workload_bounds 0 (fun _ _ => 0) (by intro j i; norm_num)

/-- **C6** (the code, at the failing inputs): the rejection loop accepts
`draw = 0` immediately when `nodecnt = 0` — an id outside the empty valid
range `[0, 0)` — with no error, and for `nodecnt = -5` every draw is
rejected, so the loop never terminates for any amount of fuel; there is no
retry bound and no `WorkloadGenerationError` anywhere in the code. -/
theorem sampler_no_retry_bound_no_error :
    sampleSrc 1 (fun _ => 0) 0 = some 0
    ∧ ¬ ((0 : Int) < 0)
    ∧ ∀ fuel, sampleSrc fuel (fun _ => 999) (-5) = none := by
  refine ⟨by decide, by decide, ?_⟩
  intro fuel
  induction fuel with
  | zero => rfl
  | succ m ih =>
    simp only [sampleSrc]
    rw [if_pos (by decide)]
    exact ih

/-- **C7** (the code, at the failing input): loading the token stream
`3 101 7` — a trailing incomplete record `7` with no object id — inserts
`(objid = 101, nodeid = 3)` and then `(objid = 0, nodeid = 7)`: the
incomplete record is inserted into the spatial index with the default
object id `0` produced by the failed extraction, and no error is raised. -/
theorem loadObjects_trailing_record_inserted :
    loadObjects [3, 101, 7] = [(101, 3), (0, 7)] := by decide

/-- **C8**: one iteration of the query loop first empties the page-access
trace and starts from zeroed per-query counters, so its outcome is
independent of any history left by earlier queries, the trace the estimator
reads is exactly the pages touched by this query, and the estimator values
are those of this query's pages alone. -/
theorem queryIteration_resets_trace (h0 pages : List PageId) (na ea : Nat) :
    queryIteration h0 pages na ea = queryIteration [] pages na ea
    ∧ (queryIteration h0 pages na ea).history = pages
    ∧ (queryIteration h0 pages na ea).lrus = pagelruMulti sixCaps pages
    ∧ (queryIteration h0 pages na ea).nodeaccess = na
    ∧ (queryIteration h0 pages na ea).edgeaccess = ea :=
  ⟨rfl, rfl, rfl, Nat.zero_add na, Nat.zero_add ea⟩

/-- **C2** (the code, at the failing input): with `numquery = 0` the report
computation has no defined value — the integer divisions
`totallru*/numquery` are division by zero (undefined behaviour in C) and
the float divisions produce NaN/∞ — so the run cannot produce the all-zero
report the claim describes. -/
theorem report_zero_queries_undefined (t : Totals) : mkReport t 0 = none := by
  simp [mkReport, fdiv]

/-- **C10**: for every positive query count the six per-capacity averages
are computed with C integer division (truncation toward zero, so e.g. a
total of 9 over 10 queries reports 0), while the time, result-count and
node/edge-access averages are exact (floating-point) divisions. -/
theorem report_division_modes (t : Totals) (q : Int) (hq : 0 < q) :
    ∃ r : Report, mkReport t q = some r
      ∧ r.qtime = t.totaltime / (q : ℚ)
      ∧ r.res = (t.resultsize : ℚ) / (q : ℚ)
      ∧ r.node = (t.totalnodeaccess : ℚ) / (q : ℚ)
      ∧ r.edge = (t.totaledgeaccess : ℚ) / (q : ℚ)
      ∧ r.lru1 = Int.tdiv t.totallru1 q
      ∧ r.lru10 = Int.tdiv t.totallru10 q
      ∧ r.lru20 = Int.tdiv t.totallru20 q
      ∧ r.lru30 = Int.tdiv t.totallru30 q
      ∧ r.lru40 = Int.tdiv t.totallru40 q
      ∧ r.lru50 = Int.tdiv t.totallru50 q
      ∧ (0 ≤ t.totallru1 →
          r.lru1 * q ≤ t.totallru1 ∧ t.totallru1 < (r.lru1 + 1) * q) := by
  have hq0 : q ≠ 0 := hq.ne'
  have hqQ : (q : ℚ) ≠ 0 := Int.cast_ne_zero.2 hq0
  have hfd : ∀ a : ℚ, fdiv a (q : ℚ) = some (a / (q : ℚ)) := fun a => by
    rw [fdiv, if_neg hqQ]
  have hcd : ∀ a : Int, cdiv a q = some (Int.tdiv a q) := fun a => by
    rw [cdiv, if_neg hq0]
  refine ⟨⟨t.totaltime / (q : ℚ), (t.resultsize : ℚ) / (q : ℚ),
      (t.totalnodeaccess : ℚ) / (q : ℚ), (t.totaledgeaccess : ℚ) / (q : ℚ),
      Int.tdiv t.totallru1 q, Int.tdiv t.totallru10 q, Int.tdiv t.totallru20 q,
      Int.tdiv t.totallru30 q, Int.tdiv t.totallru40 q, Int.tdiv t.totallru50 q⟩,
    ?_, rfl, rfl, rfl, rfl, rfl, rfl, rfl, rfl, rfl, rfl, ?_⟩
  · simp [mkReport, hfd, hcd]
  · intro hpos
    have htd : Int.tdiv t.totallru1 q = t.totallru1 / q :=
      Int.tdiv_eq_ediv hpos hq.le
    exact ⟨htd ▸ Int.ediv_mul_le _ hq0, htd ▸ Int.lt_ediv_add_one_mul_self _ hq⟩

/-- Witness for **C10**: totals of 9 over 10 queries — the integer-divided
lru field reports 0 while the float-divided result field reports `9/10`. -/
theorem report_division_modes_witness :
    (0 : Int) < 10
    ∧ ∃ r : Report, mkReport ⟨9, 9, 9, 9, 9, 9, 9, 9, 9, 9⟩ 10 = some r
        ∧ r.lru1 = 0 ∧ r.res = 9 / 10 := by
  obtain ⟨r, h1, _, h3, _, _, h6, _⟩ :=
    report_division_modes ⟨9, 9, 9, 9, 9, 9, 9, 9, 9, 9⟩ 10 (by decide)
  exact ⟨by decide, r, h1, by rw [h6]; decide, by rw [h3]; norm_num⟩

/-- **C9**: every id the sampler can produce is `draw k nodecnt` for some
`k < 1000`; the image of the draw function over its 1000 possible inputs
has at most 1000 elements; and for every `nodecnt > 1000` some valid id in
`[0, nodecnt)` can never be drawn — the draw is not uniform over
`[0, nodecnt)`. -/
theorem sampler_image_bounded :
    (∀ fuel (ks : Nat → Nat) (n v : Int), (∀ i, ks i < 1000) →
      sampleSrc fuel ks n = some v → ∃ k, k < 1000 ∧ v = draw k n)
    ∧ (∀ n : Int, ((Finset.range 1000).image (fun k => draw k n)).card ≤ 1000)
    ∧ (∀ n : Int, 1000 < n →
        ∃ v : Int, 0 ≤ v ∧ v < n ∧ ∀ k, k < 1000 → draw k n ≠ v) := by
  refine ⟨?_, ?_, ?_⟩
  · intro fuel
    induction fuel with
    | zero => intro ks n v _ h; cases h
    | succ m ih =>
      intro ks n v hks h
      simp only [sampleSrc] at h
      by_cases hv : n < draw (ks 0) n
      · rw [if_pos hv] at h
        exact ih (fun i => ks (i + 1)) n v (fun i => hks (i + 1)) h
      · rw [if_neg hv] at h
        exact ⟨ks 0, hks 0, (Option.some_injective _ h).symm⟩
  · intro n
    calc ((Finset.range 1000).image (fun k => draw k n)).card
        ≤ (Finset.range 1000).card := Finset.card_image_le
    _ = 1000 := Finset.card_range 1000
  · intro n hn
    have hcard : ((Finset.range 1000).image (fun k => draw k n)).card ≤ 1000 := by
      calc ((Finset.range 1000).image (fun k => draw k n)).card
          ≤ (Finset.range 1000).card := Finset.card_image_le
      _ = 1000 := Finset.card_range 1000
    have hico : (Finset.Ico (0 : Int) n).card = n.toNat := by
      rw [Int.card_Ico, Int.sub_zero]
    have hlt : ((Finset.range 1000).image (fun k => draw k n)).card
        < (Finset.Ico (0 : Int) n).card := by
      rw [hico]
      have h1 : (1000 : Nat) < n.toNat := Int.lt_toNat.2 hn
      omega
    have hns : ¬ Finset.Ico (0 : Int) n
        ⊆ (Finset.range 1000).image (fun k => draw k n) := fun hsub =>
      absurd (Finset.card_le_card hsub) (not_le.2 hlt)
    obtain ⟨v, hv, hvn⟩ := Finset.not_subset.1 hns
    rw [Finset.mem_Ico] at hv
    refine ⟨v, hv.1, hv.2, fun k hk hkv => hvn ?_⟩
    exact Finset.mem_image.2 ⟨k, Finset.mem_range.2 hk, hkv⟩

/-- Witness for **C9**: the value `0` produced by
`sampleSrc 1 (fun _ => 5) 7` has draw form, and for `nodecnt = 1001` some
valid id is never drawn. -/
theorem sampler_image_bounded_witness :
    (∃ k, k < 1000 ∧ (0 : Int) = draw k 7)
    ∧ (∃ v : Int, 0 ≤ v ∧ v < 1001 ∧ ∀ k, k < 1000 → draw k 1001 ≠ v) :=
  ⟨sampler_image_bounded.1 1 (fun _ => 5) 7 0 (by intro i; norm_num) (by decide),
   sampler_image_bounded.2.2 1001 (by decide)⟩

end SpatialGRange
